import Mathlib

/-!
Verification of the wiki front end (client-side wiki over a GitHub content
store).  The development shallowly embeds the content cache, the path
normalizer, the save path, the front-matter parser and the search indexer
from `src/assets/js/editor.js`, `src/assets/js/app.js` and
`src/assets/js/search.js`, and settles the stated properties about them.

Strings are modelled as lists of characters (`Str`).  JavaScript string
truthiness (the empty string is falsy) is modelled explicitly at each site
where the source relies on it.
-/

set_option maxRecDepth 4000
set_option linter.unnecessarySimpa false

abbrev Str := List Char

/-! ## Path normalization (`ContentService.normalizePath`, editor.js) -/

def isSlash (c : Char) : Bool := c = '/'

/-- Removal of a trailing run of characters satisfying `q`
(the `\/+$` half of the regex `/^\/+|\/+$/g`, generalised so the same
function also serves string trimming). -/
def dropTrailing (q : Char → Bool) : Str → Str
  | [] => []
  | c :: rest =>
    match dropTrailing q rest with
    | [] => if q c then [] else [c]
    | r => c :: r

/-- Stripping of leading and trailing slashes (the path.replace regex step). -/
def stripSlashes (p : Str) : Str := dropTrailing isSlash (p.dropWhile isSlash)

/-- Embeds `ContentService.normalizePath`: strip slashes, then append `.md`
when the stripped path is nonempty, does not end in a slash and contains
no dot. -/
def normalizePath (p : Str) : Str :=
  let path := stripSlashes p
  if path ≠ [] ∧ path.getLast? ≠ some '/' ∧ '.' ∉ path then
    path ++ ('.' :: 'm' :: 'd' :: [])
  else
    path

/-! ### Lemmas about `dropWhile` and `dropTrailing` -/

theorem dropWhile_head_not (q : Char → Bool) (l : Str) (c : Char)
    (h : (l.dropWhile q).head? = some c) : q c = false := by
  induction l with
  | nil => simp [List.dropWhile] at h
  | cons a t ih =>
    by_cases hq : q a
    · simp [List.dropWhile, hq] at h
      exact ih h
    · simp [List.dropWhile, hq] at h
      subst h
      simpa using hq

theorem dropWhile_eq_self_of_head (q : Char → Bool) (l : Str)
    (h : ∀ c, l.head? = some c → q c = false) : l.dropWhile q = l := by
  cases l with
  | nil => rfl
  | cons a t => simp [List.dropWhile, h a rfl]

theorem dropWhile_getLast? (q : Char → Bool) (l : Str) :
    l.dropWhile q = [] ∨ (l.dropWhile q).getLast? = l.getLast? := by
  induction l with
  | nil => exact Or.inl rfl
  | cons a t ih =>
    by_cases hq : q a
    · rcases ih with h | h
      · exact Or.inl (by simp [List.dropWhile, hq, h])
      · cases t with
        | nil =>
          exact Or.inl (by simp [List.dropWhile, hq])
        | cons b u =>
          refine Or.inr ?_
          rw [List.dropWhile_cons, if_pos (by simpa using hq)]
          rw [h]
          simp [List.getLast?_cons_cons]
    · exact Or.inr (by simp [List.dropWhile, hq])

theorem mem_of_mem_dropWhile (q : Char → Bool) (l : Str) (c : Char)
    (h : c ∈ l.dropWhile q) : c ∈ l := by
  induction l with
  | nil => simpa [List.dropWhile] using h
  | cons a t ih =>
    rw [List.dropWhile_cons] at h
    by_cases hq : q a = true
    · rw [if_pos hq] at h
      exact List.mem_cons_of_mem a (ih h)
    · rw [if_neg hq] at h
      exact h

theorem dropWhile_ne_nil_of_mem (q : Char → Bool) (l : Str) (c : Char)
    (hc : c ∈ l) (hq : q c = false) : l.dropWhile q ≠ [] := by
  induction l with
  | nil => cases hc
  | cons a t ih =>
    by_cases ha : q a
    · rw [List.dropWhile_cons, if_pos (by simpa using ha)]
      rcases List.mem_cons.mp hc with rfl | hc
      · rw [ha] at hq; cases hq
      · exact ih hc
    · rw [List.dropWhile_cons, if_neg (by simpa using ha)]
      simp

theorem dropTrailing_getLast_not (q : Char → Bool) (l : Str) (c : Char)
    (h : (dropTrailing q l).getLast? = some c) : q c = false := by
  induction l with
  | nil => simp [dropTrailing] at h
  | cons a t ih =>
    rw [dropTrailing] at h
    rcases hr : dropTrailing q t with _ | ⟨b, u⟩
    · rw [hr] at h
      by_cases hq : q a
      · simp [hq] at h
      · simp [hq] at h
        subst h
        simpa using hq
    · rw [hr] at h
      rw [List.getLast?_cons_cons] at h
      rw [hr] at ih
      exact ih (by simpa using h)

theorem dropTrailing_eq_self (q : Char → Bool) (l : Str)
    (h : ∀ c, l.getLast? = some c → q c = false) : dropTrailing q l = l := by
  induction l with
  | nil => rfl
  | cons a t ih =>
    cases t with
    | nil =>
      have ha : q a = false := h a rfl
      simp [dropTrailing, ha]
    | cons b u =>
      have ht : dropTrailing q (b :: u) = b :: u := by
        apply ih
        intro c hc
        apply h
        rwa [List.getLast?_cons_cons]
      rw [dropTrailing, ht]

theorem dropTrailing_head? (q : Char → Bool) (l : Str) :
    dropTrailing q l = [] ∨ (dropTrailing q l).head? = l.head? := by
  cases l with
  | nil => exact Or.inl rfl
  | cons a t =>
    rw [dropTrailing]
    rcases dropTrailing q t with _ | ⟨b, u⟩
    · by_cases hq : q a
      · exact Or.inl (by simp [hq])
      · exact Or.inr (by simp [hq])
    · exact Or.inr rfl

theorem mem_of_mem_dropTrailing (q : Char → Bool) (l : Str) (c : Char)
    (h : c ∈ dropTrailing q l) : c ∈ l := by
  induction l with
  | nil => simpa [dropTrailing] using h
  | cons a t ih =>
    rw [dropTrailing] at h
    rcases hr : dropTrailing q t with _ | ⟨b, u⟩
    · rw [hr] at h
      by_cases hq : q a = true
      · simp [hq] at h
      · rw [if_neg hq] at h
        rcases List.mem_singleton.mp h with rfl
        exact List.mem_cons_self c t
    · rw [hr] at h
      rcases List.mem_cons.mp h with rfl | h2
      · exact List.mem_cons_self c t
      · exact List.mem_cons_of_mem a (ih (hr ▸ h2))

theorem dropTrailing_ne_nil (q : Char → Bool) (l : Str) (c : Char)
    (hc : l.getLast? = some c) (hq : q c = false) : dropTrailing q l ≠ [] := by
  induction l with
  | nil => simp at hc
  | cons a t ih =>
    cases t with
    | nil =>
      simp at hc
      subst hc
      simp [dropTrailing, hq]
    | cons b u =>
      rw [List.getLast?_cons_cons] at hc
      have := ih hc
      rw [dropTrailing]
      rcases hr : dropTrailing q (b :: u) with _ | ⟨d, v⟩
      · exact absurd hr this
      · simp

/-! ### Properties of `stripSlashes` -/

theorem stripSlashes_getLast_not_slash (p : Str) (c : Char)
    (h : (stripSlashes p).getLast? = some c) : c ≠ '/' := by
  have := dropTrailing_getLast_not isSlash (p.dropWhile isSlash) c h
  simpa [isSlash] using this

theorem stripSlashes_head_not_slash (p : Str) (c : Char)
    (h : (stripSlashes p).head? = some c) : c ≠ '/' := by
  rcases dropTrailing_head? isSlash (p.dropWhile isSlash) with he | hh
  · rw [stripSlashes, he] at h
    cases h
  · rw [stripSlashes, hh] at h
    have := dropWhile_head_not isSlash p c h
    simpa [isSlash] using this

theorem mem_stripSlashes (p : Str) (c : Char) (h : c ∈ stripSlashes p) :
    c ∈ p := by
  exact mem_of_mem_dropWhile isSlash p c
    (mem_of_mem_dropTrailing isSlash (p.dropWhile isSlash) c h)

theorem stripSlashes_idem (p : Str) :
    stripSlashes (stripSlashes p) = stripSlashes p := by
  have h1 : (stripSlashes p).dropWhile isSlash = stripSlashes p :=
    dropWhile_eq_self_of_head isSlash (stripSlashes p) (by
      intro c hc
      have := stripSlashes_head_not_slash p c hc
      simpa [isSlash] using this)
  have h2 : dropTrailing isSlash (stripSlashes p) = stripSlashes p :=
    dropTrailing_eq_self isSlash (stripSlashes p) (by
      intro c hc
      have := stripSlashes_getLast_not_slash p c hc
      simpa [isSlash] using this)
  calc stripSlashes (stripSlashes p)
      = dropTrailing isSlash ((stripSlashes p).dropWhile isSlash) := rfl
    _ = dropTrailing isSlash (stripSlashes p) := by rw [h1]
    _ = stripSlashes p := h2

theorem mem_of_getLast?_eq (l : Str) (c : Char) (h : l.getLast? = some c) :
    c ∈ l := by
  induction l with
  | nil => cases h
  | cons a t ih =>
    cases t with
    | nil =>
      simp at h
      simp [h]
    | cons b u =>
      rw [List.getLast?_cons_cons] at h
      exact List.mem_cons_of_mem a (ih h)

theorem stripSlashes_ne_nil (p : Str) (c : Char) (hc : p.getLast? = some c)
    (hs : c ≠ '/') : stripSlashes p ≠ [] := by
  have hcq : isSlash c = false := by simpa [isSlash] using hs
  have hmem : c ∈ p := mem_of_getLast?_eq p c hc
  have hdw : p.dropWhile isSlash ≠ [] := dropWhile_ne_nil_of_mem isSlash p c hmem hcq
  rcases dropWhile_getLast? isSlash p with he | hl
  · exact absurd he hdw
  · exact dropTrailing_ne_nil isSlash (p.dropWhile isSlash) c (hl.trans hc) hcq

theorem stripSlashes_eq_self (l : Str)
    (hh : ∀ c, l.head? = some c → isSlash c = false)
    (hl : ∀ c, l.getLast? = some c → isSlash c = false) :
    stripSlashes l = l := by
  have h1 : l.dropWhile isSlash = l := dropWhile_eq_self_of_head isSlash l hh
  calc stripSlashes l = dropTrailing isSlash (l.dropWhile isSlash) := rfl
    _ = dropTrailing isSlash l := by rw [h1]
    _ = l := dropTrailing_eq_self isSlash l hl

theorem getLast?_append_md (l : Str) :
    (l ++ ('.' :: 'm' :: 'd' :: [])).getLast? = some 'd' := by
  induction l with
  | nil => rfl
  | cons a t ih =>
    rw [List.cons_append]
    rcases htm : t ++ ('.' :: 'm' :: 'd' :: []) with _ | ⟨b, u⟩
    · exact absurd htm (by simp)
    · rw [htm] at ih
      rw [List.getLast?_cons_cons]
      exact ih

/-! ### Claims C7 and C8 -/

/-- C7 (as stated) fails on the empty path: the empty string has no dot and
does not end in a separator, yet `normalizePath` returns it unchanged instead
of appending `.md`. -/
theorem normalizePath_empty_path_cex :
    ('.' ∉ ([] : Str)) ∧ (([] : Str).getLast? ≠ some '/') ∧
    normalizePath [] ≠ stripSlashes [] ++ ('.' :: 'm' :: 'd' :: []) := by
  decide

/-- C7 (amended): for every nonempty path `p` that contains no dot (the code
notion of being extension-free) and does not end in a slash, `normalizePath p`
is `p` with leading and trailing slashes stripped and `.md` appended. -/
theorem normalizePath_appends_md (p : Str) (h1 : p ≠ []) (h2 : '.' ∉ p)
    (h3 : p.getLast? ≠ some '/') :
    normalizePath p = stripSlashes p ++ ('.' :: 'm' :: 'd' :: []) := by
  have hc : p.getLast? = some (p.getLast h1) := List.getLast?_eq_getLast_of_ne_nil h1
  have hcs : p.getLast h1 ≠ '/' := by
    intro hx
    exact h3 (by rw [hc, hx])
  have hne : stripSlashes p ≠ [] := stripSlashes_ne_nil p (p.getLast h1) hc hcs
  have hlast : (stripSlashes p).getLast? ≠ some '/' := by
    intro hx
    exact stripSlashes_getLast_not_slash p '/' hx rfl
  have hdot : '.' ∉ stripSlashes p := fun hm => h2 (mem_stripSlashes p '.' hm)
  simp only [normalizePath]
  rw [if_pos ⟨hne, hlast, hdot⟩]

/-- Witness for C7 at the concrete path "home". -/
theorem normalizePath_appends_md_witness :
    (('h' :: 'o' :: 'm' :: 'e' :: []) ≠ ([] : Str)) ∧
    normalizePath ('h' :: 'o' :: 'm' :: 'e' :: []) =
      stripSlashes ('h' :: 'o' :: 'm' :: 'e' :: []) ++ ('.' :: 'm' :: 'd' :: []) :=
  ⟨by decide,
   normalizePath_appends_md ('h' :: 'o' :: 'm' :: 'e' :: [])
     (by decide) (by decide) (by decide)⟩

/-- C8: `normalizePath` is idempotent. -/
theorem normalizePath_idempotent (p : Str) :
    normalizePath (normalizePath p) = normalizePath p := by
  by_cases hcond : stripSlashes p ≠ [] ∧ (stripSlashes p).getLast? ≠ some '/' ∧
      '.' ∉ stripSlashes p
  · have hval : normalizePath p = stripSlashes p ++ ('.' :: 'm' :: 'd' :: []) := by
      simp only [normalizePath]
      rw [if_pos hcond]
    obtain ⟨hne, hlast, hdot⟩ := hcond
    have hhead : ∀ c,
        (stripSlashes p ++ ('.' :: 'm' :: 'd' :: [])).head? = some c →
        isSlash c = false := by
      intro c hcx
      cases hs : stripSlashes p with
      | nil => exact absurd hs hne
      | cons a t =>
        rw [hs, List.cons_append, List.head?_cons, Option.some.injEq] at hcx
        have ha := stripSlashes_head_not_slash p a (by rw [hs]; rfl)
        rw [← hcx]
        simpa [isSlash] using ha
    have hlst : ∀ c,
        (stripSlashes p ++ ('.' :: 'm' :: 'd' :: [])).getLast? = some c →
        isSlash c = false := by
      intro c hcx
      rw [getLast?_append_md, Option.some.injEq] at hcx
      subst hcx
      decide
    have hstrip := stripSlashes_eq_self
      (stripSlashes p ++ ('.' :: 'm' :: 'd' :: [])) hhead hlst
    rw [hval]
    simp only [normalizePath]
    rw [hstrip, if_neg]
    intro hx
    exact hx.2.2 (by simp)
  · have hval : normalizePath p = stripSlashes p := by
      simp only [normalizePath]
      rw [if_neg hcond]
    rw [hval]
    simp only [normalizePath]
    rw [stripSlashes_idem p, if_neg hcond]

/-! ## Content cache (`ContentService`, editor.js)

The cache is a map from normalized path to `(content, timestamp)`.  The
JavaScript `Map` is modelled as a function from keys to optional entries.
The network is modelled as an oracle argument: each call to `getFile` takes
the outcome the underlying `fetch` would produce.  The boolean truthiness
test `if (cachedContent)` of the source is modelled explicitly: the empty
string is falsy. -/

def cacheTTL : Nat := 5 * 60 * 1000

structure CacheEntry where
  content : Str
  timestamp : Nat
deriving DecidableEq

def Cache := Str → Option CacheEntry

def emptyCache : Cache := fun _ => none

def cacheSet (m : Cache) (k : Str) (v : CacheEntry) : Cache :=
  fun q => if q = k then some v else m q

def cacheDelete (m : Cache) (k : Str) : Cache :=
  fun q => if q = k then none else m q

/-- Embeds `ContentService.addToCache`. -/
def addToCache (m : Cache) (path content : Str) (now : Nat) : Cache :=
  cacheSet m path ⟨content, now⟩

/-- Embeds `ContentService.getFromCache`: returns the cached content and the cache
after the lazy eviction this read may perform.  An entry is expired exactly
when `now - timestamp > cacheTTL`. -/
def getFromCache (m : Cache) (path : Str) (now : Nat) : Option Str × Cache :=
  match m path with
  | none => (none, m)
  | some e =>
    if now - e.timestamp > cacheTTL then (none, cacheDelete m path)
    else (some e.content, m)

/-- Outcome of the `fetch` a `getFile` call would issue. -/
inductive FetchResult where
  | ok (content : Str)
  | notFound
  | err
deriving DecidableEq

/-- What `getFile` produces: the resolved value (content, the `null`
sentinel for 404, or a thrown error). -/
inductive GetResult where
  | found (content : Str)
  | nullResult
  | errorResult
deriving DecidableEq

structure GetOutcome where
  result : GetResult
  cache : Cache
  fetches : Nat

/-- The network half of `ContentService.getFile` (after a cache miss). -/
def getFileFetch (m : Cache) (path : Str) (now : Nat) (fetch : FetchResult) :
    GetOutcome :=
  match fetch with
  | .ok c => ⟨.found c, addToCache m path c now, 1⟩
  | .notFound => ⟨.nullResult, m, 1⟩
  | .err => ⟨.errorResult, m, 1⟩

/-- Embeds `ContentService.getFile`: normalize, consult the cache (`if
(cachedContent)` is a truthiness test, so cached empty content falls
through to the network), otherwise fetch; a 404 resolves to `null` and is
not cached; a success is cached. -/
def getFile (m : Cache) (rawPath : Str) (now : Nat) (fetch : FetchResult) :
    GetOutcome :=
  let path := normalizePath rawPath
  match getFromCache m path now with
  | (some c, m1) =>
    if c ≠ [] then ⟨.found c, m1, 0⟩ else getFileFetch m1 path now fetch
  | (none, m1) => getFileFetch m1 path now fetch

/-! ### Claims C1, C2, C10 -/

/-- Helper: a `getFile` issued against a cache holding `(c, t1)` at the
normalized path, within TTL and with `c` nonempty, is served from the cache
with no fetch. -/
theorem getFile_after_set (m1 : Cache) (p c : Str) (t1 t2 : Nat)
    (f2 : FetchResult) (hc : c ≠ []) (httl : t2 - t1 < cacheTTL) :
    getFile (cacheSet m1 (normalizePath p) ⟨c, t1⟩) p t2 f2 =
      ⟨.found c, cacheSet m1 (normalizePath p) ⟨c, t1⟩, 0⟩ := by
  have hm : (cacheSet m1 (normalizePath p) ⟨c, t1⟩) (normalizePath p) =
      some ⟨c, t1⟩ := by
    simp [cacheSet]
  have hnot : ¬ (t2 - t1 > cacheTTL) := lt_asymm httl
  have hfc : getFromCache (cacheSet m1 (normalizePath p) ⟨c, t1⟩)
      (normalizePath p) t2 =
      (some c, cacheSet m1 (normalizePath p) ⟨c, t1⟩) := by
    simp [getFromCache, hm, hnot]
  simp [getFile, hfc, hc]

/-- C1 (as stated) fails when the fetched content is the empty string: the
first call fetches and caches the empty content, but the truthiness test
`if (cachedContent)` treats the cached empty string as a miss, so the second
call within the TTL fetches again — two underlying fetches in total, not
one. -/
theorem getFile_refetches_empty_content_cex :
    (getFile emptyCache ('h' :: 'o' :: 'm' :: 'e' :: []) 0 (.ok [])).fetches
      = 1 ∧
    (getFile ((getFile emptyCache ('h' :: 'o' :: 'm' :: 'e' :: []) 0
        (.ok [])).cache) ('h' :: 'o' :: 'm' :: 'e' :: []) 1 (.ok [])).fetches
      = 1 := by
  constructor <;> decide

/-- C1 (amended): for every path whose (nonempty) content has been fetched
once, a second `getFile` for the same path within the TTL performs no
further fetch and is answered from the cache. -/
theorem getFile_cached_within_ttl (m : Cache) (p : Str) (t1 t2 : Nat)
    (c : Str) (f2 : FetchResult) (hc : c ≠ [])
    (httl : t2 - t1 < cacheTTL)
    (hf : (getFile m p t1 (.ok c)).fetches = 1) :
    getFile ((getFile m p t1 (.ok c)).cache) p t2 f2 =
      ⟨.found c, (getFile m p t1 (.ok c)).cache, 0⟩ := by
  rcases hm : m (normalizePath p) with _ | e
  · have h1 : getFile m p t1 (.ok c) =
        ⟨.found c, cacheSet m (normalizePath p) ⟨c, t1⟩, 1⟩ := by
      simp [getFile, getFromCache, hm, getFileFetch, addToCache]
    rw [h1]
    exact getFile_after_set m p c t1 t2 f2 hc httl
  · by_cases hexp : t1 - e.timestamp > cacheTTL
    · have h1 : getFile m p t1 (.ok c) =
          ⟨.found c,
           cacheSet (cacheDelete m (normalizePath p)) (normalizePath p)
             ⟨c, t1⟩, 1⟩ := by
        simp [getFile, getFromCache, hm, hexp, getFileFetch, addToCache]
      rw [h1]
      exact getFile_after_set _ p c t1 t2 f2 hc httl
    · by_cases hec : e.content = []
      · have h1 : getFile m p t1 (.ok c) =
            ⟨.found c, cacheSet m (normalizePath p) ⟨c, t1⟩, 1⟩ := by
          simp [getFile, getFromCache, hm, hexp, hec, getFileFetch,
            addToCache]
        rw [h1]
        exact getFile_after_set m p c t1 t2 f2 hc httl
      · exfalso
        have h1 : getFile m p t1 (.ok c) = ⟨.found e.content, m, 0⟩ := by
          simp [getFile, getFromCache, hm, hexp, hec]
        rw [h1] at hf
        simp at hf

/-- Witness for C1 at a concrete path and content. -/
theorem getFile_cached_within_ttl_witness :
    getFile ((getFile emptyCache ('h' :: 'i' :: []) 0
        (.ok ('x' :: []))).cache) ('h' :: 'i' :: []) 7 .notFound =
      ⟨.found ('x' :: []),
       (getFile emptyCache ('h' :: 'i' :: []) 0 (.ok ('x' :: []))).cache,
       0⟩ :=
  getFile_cached_within_ttl emptyCache ('h' :: 'i' :: []) 0 7 ('x' :: [])
    .notFound (by decide) (by decide) (by decide)

/-- C2 (as stated) fails at the TTL boundary: an entry whose age is exactly
the TTL (age has "reached" the TTL) is still served, because expiry requires
`now - timestamp > cacheTTL` strictly. -/
theorem getFromCache_serves_at_ttl_cex :
    (getFromCache (cacheSet emptyCache ('a' :: []) ⟨('x' :: []), 0⟩)
      ('a' :: []) cacheTTL).1 = some ('x' :: []) := by
  decide

/-- C2 (amended): an entry is valid exactly while `now - fetchedAt ≤ TTL`;
a valid entry is served with the cache untouched; an entry strictly older
than the TTL is never served and is removed lazily by that read; a read of a
different path never touches this entry, and a write to a different path
never removes it (eviction is never proactive). -/
theorem getFromCache_ttl_invariant (m : Cache) (p : Str) (now : Nat)
    (e : CacheEntry) (h : m p = some e) :
    (now - e.timestamp ≤ cacheTTL →
        getFromCache m p now = (some e.content, m)) ∧
    (now - e.timestamp > cacheTTL →
        getFromCache m p now = (none, cacheDelete m p) ∧
        (getFromCache m p now).2 p = none) ∧
    (∀ q, q ≠ p → (getFromCache m q now).2 p = m p) ∧
    (∀ q c2 t2, q ≠ p → addToCache m q c2 t2 p = m p) := by
  refine ⟨?_, ?_, ?_, ?_⟩
  · intro hle
    have hnot : ¬ (now - e.timestamp > cacheTTL) := not_lt.mpr hle
    simp [getFromCache, h, hnot]
  · intro hgt
    constructor
    · simp [getFromCache, h, hgt]
    · simp [getFromCache, h, hgt, cacheDelete]
  · intro q hq
    rcases hmq : m q with _ | e2
    · simp [getFromCache, hmq]
    · by_cases hst : now - e2.timestamp > cacheTTL
      · simp [getFromCache, hmq, hst, cacheDelete, Ne.symm hq]
      · simp [getFromCache, hmq, hst]
  · intro q c2 t2 hq
    simp [addToCache, cacheSet, Ne.symm hq]

/-- Witness for C2: a fresh concrete entry is served unchanged. -/
theorem getFromCache_ttl_invariant_witness :
    getFromCache (cacheSet emptyCache ('a' :: []) ⟨('x' :: []), 5⟩)
      ('a' :: []) 10 =
      (some ('x' :: []), cacheSet emptyCache ('a' :: []) ⟨('x' :: []), 5⟩) :=
  (getFromCache_ttl_invariant
      (cacheSet emptyCache ('a' :: []) ⟨('x' :: []), 5⟩)
      ('a' :: []) 10 ⟨('x' :: []), 5⟩ (by decide)).1 (by decide)

/-- C10 (as stated) fails when an expired entry sits at the requested path:
the lookup performed by `getFile` removes the expired entry before the 404
is observed, so the cache map is changed (an entry is removed) even though
the claim says no entry is added or removed. -/
theorem getFile_notFound_removes_expired_cex :
    (cacheSet emptyCache ('h' :: 'o' :: 'm' :: 'e' :: '.' :: 'm' :: 'd' :: [])
        ⟨('x' :: []), 0⟩) ('h' :: 'o' :: 'm' :: 'e' :: '.' :: 'm' :: 'd' :: [])
      = some ⟨('x' :: []), 0⟩ ∧
    (getFile (cacheSet emptyCache
        ('h' :: 'o' :: 'm' :: 'e' :: '.' :: 'm' :: 'd' :: []) ⟨('x' :: []), 0⟩)
        ('h' :: 'o' :: 'm' :: 'e' :: []) (cacheTTL + 1) .notFound).result
      = .nullResult ∧
    (getFile (cacheSet emptyCache
        ('h' :: 'o' :: 'm' :: 'e' :: '.' :: 'm' :: 'd' :: []) ⟨('x' :: []), 0⟩)
        ('h' :: 'o' :: 'm' :: 'e' :: []) (cacheTTL + 1) .notFound).cache
        ('h' :: 'o' :: 'm' :: 'e' :: '.' :: 'm' :: 'd' :: [])
      = none := by
  refine ⟨by decide, by decide, by decide⟩

/-- C10 (amended): when the store answers 404, `getFile` returns the null
sentinel after exactly one fetch and adds no cache entry; the cache is
unchanged except that an already-expired entry at the requested path is
removed by the lookup; consequently every later `getFile` of the path
(against the resulting cache) issues a fetch again. -/
theorem getFile_notFound_cache (m : Cache) (p : Str) (now : Nat)
    (o : GetOutcome) (h : getFile m p now .notFound = o)
    (hr : o.result = .nullResult) :
    o.fetches = 1 ∧
    (∀ q, q ≠ normalizePath p → o.cache q = m q) ∧
    (o.cache (normalizePath p) = m (normalizePath p) ∨
      (o.cache (normalizePath p) = none ∧
       ∃ e, m (normalizePath p) = some e ∧ now - e.timestamp > cacheTTL)) ∧
    (∀ now2 f2, (getFile o.cache p now2 f2).fetches = 1) := by
  rcases hm : m (normalizePath p) with _ | e
  · have h1 : getFile m p now .notFound = ⟨.nullResult, m, 1⟩ := by
      simp [getFile, getFromCache, hm, getFileFetch]
    rw [h1] at h
    subst h
    refine ⟨rfl, fun q _ => rfl, Or.inl hm, ?_⟩
    intro now2 f2
    cases f2 <;> simp [getFile, getFromCache, hm, getFileFetch]
  · by_cases hexp : now - e.timestamp > cacheTTL
    · have h1 : getFile m p now .notFound =
          ⟨.nullResult, cacheDelete m (normalizePath p), 1⟩ := by
        simp [getFile, getFromCache, hm, hexp, getFileFetch]
      rw [h1] at h
      subst h
      refine ⟨rfl, ?_, ?_, ?_⟩
      · intro q hq
        simp [cacheDelete, hq]
      · exact Or.inr ⟨by simp [cacheDelete], e, rfl, hexp⟩
      · intro now2 f2
        have hdel : cacheDelete m (normalizePath p) (normalizePath p) = none := by
          simp [cacheDelete]
        cases f2 <;> simp [getFile, getFromCache, hdel, getFileFetch]
    · by_cases hec : e.content = []
      · have h1 : getFile m p now .notFound = ⟨.nullResult, m, 1⟩ := by
          simp [getFile, getFromCache, hm, hexp, hec, getFileFetch]
        rw [h1] at h
        subst h
        refine ⟨rfl, fun q _ => rfl, Or.inl hm, ?_⟩
        intro now2 f2
        by_cases hexp2 : now2 - e.timestamp > cacheTTL
        · cases f2 <;> simp [getFile, getFromCache, hm, hexp2, getFileFetch]
        · cases f2 <;>
            simp [getFile, getFromCache, hm, hexp2, hec, getFileFetch]
      · exfalso
        have h1 : getFile m p now .notFound = ⟨.found e.content, m, 0⟩ := by
          simp [getFile, getFromCache, hm, hexp, hec]
        rw [h1] at h
        rw [← h] at hr
        simp at hr

/-- Witness for C10 against the empty cache. -/
theorem getFile_notFound_cache_witness :
    (getFile emptyCache ('h' :: 'i' :: []) 3 .notFound).fetches = 1 :=
  (getFile_notFound_cache emptyCache ('h' :: 'i' :: []) 3
    (getFile emptyCache ('h' :: 'i' :: []) 3 .notFound) rfl (by decide)).1

/-! ## Saving (`ContentService.saveFile`, editor.js)

`saveFile` first checks authentication, then reads the current file metadata
to learn its SHA, then issues a PUT whose body carries the SHA field only
when the read produced a truthy SHA, and refreshes the cache on success.
The two network operations are modelled as oracle arguments: `readSha` is
`some s` when the existence-check response was ok and carried the field
value `s`, and `none` when the file was absent or that request failed;
`writeOk` tells whether the PUT succeeded.  `btoa` is modelled as an
injective placeholder for the base64 encoding, which no claim depends on. -/

def btoa (s : Str) : Str := s

inductive SaveError where
  | authRequired
  | apiError
deriving DecidableEq

structure PutBody where
  message : Str
  content : Str
  branch : Str
  sha : Option Str
deriving DecidableEq

inductive SaveReq where
  | readMeta (path : Str)
  | put (path : Str) (body : PutBody)
deriving DecidableEq

structure SaveOutcome where
  result : Except SaveError Unit
  cache : Cache
  requests : List SaveReq

/-- The `let sha = null; if (fileResponse.ok) sha = fileData.sha` step
followed by the truthiness test `if (sha)`: the SHA is carried into the PUT
body only when the existence check produced a truthy (nonempty) value. -/
def resolveSha (readSha : Option Str) : Option Str :=
  match readSha with
  | some s => if s ≠ [] then some s else none
  | none => none

/-- Embeds `ContentService.saveFile`. -/
def saveFile (m : Cache) (rawPath content message branch : Str)
    (token : Option Str) (now : Nat) (readSha : Option Str)
    (writeOk : Bool) : SaveOutcome :=
  let path := normalizePath rawPath
  match token with
  | none => ⟨.error .authRequired, m, []⟩
  | some _ =>
    let body : PutBody := ⟨message, btoa content, branch, resolveSha readSha⟩
    let reqs := [SaveReq.readMeta path, SaveReq.put path body]
    if writeOk then ⟨.ok (), addToCache m path content now, reqs⟩
    else ⟨.error .apiError, m, reqs⟩

/-! ### Claims C5 and C6 -/

/-- C6: a `saveFile` call without an authentication token raises
immediately: it issues no request at all and leaves the cache unchanged. -/
theorem saveFile_unauthenticated (m : Cache) (p c msg br : Str) (now : Nat)
    (readSha : Option Str) (writeOk : Bool) :
    saveFile m p c msg br none now readSha writeOk =
      ⟨.error .authRequired, m, []⟩ :=
  rfl

/-- C5: an authenticated `saveFile` issues exactly the existence-check read
followed by one PUT, and (provided the store only ever reports existing
files with a nonempty SHA, as GitHub does) the PUT body carries the SHA
field exactly when the prior read found the file — the field is omitted for
a create and holds the fetched SHA for an update. -/
theorem saveFile_sha_iff_exists (m : Cache) (p c msg br t : Str) (now : Nat)
    (readSha : Option Str) (writeOk : Bool)
    (hsha : ∀ s, readSha = some s → s ≠ []) :
    (saveFile m p c msg br (some t) now readSha writeOk).requests =
      [SaveReq.readMeta (normalizePath p),
       SaveReq.put (normalizePath p) ⟨msg, btoa c, br, readSha⟩] := by
  have hs : resolveSha readSha = readSha := by
    rcases hr : readSha with _ | s
    · rfl
    · simp [resolveSha, hsha s hr]
  cases writeOk <;> simp [saveFile, hs]

/-- Witness for C5: an update with a concrete nonempty SHA. -/
theorem saveFile_sha_iff_exists_witness :
    (saveFile emptyCache ('a' :: []) ('x' :: []) ('m' :: []) ('b' :: [])
        (some ('t' :: [])) 0 (some ('s' :: [])) true).requests =
      [SaveReq.readMeta (normalizePath ('a' :: [])),
       SaveReq.put (normalizePath ('a' :: []))
         ⟨('m' :: []), btoa ('x' :: []), ('b' :: []), some ('s' :: [])⟩] :=
  saveFile_sha_iff_exists emptyCache ('a' :: []) ('x' :: []) ('m' :: [])
    ('b' :: []) ('t' :: []) 0 (some ('s' :: [])) true
    (by intro s h; cases h; decide)

/-! ## Front matter (`parseFrontMatter`, identical in app.js and search.js)

The regex `/^---\n([\s\S]*?)\n---\n([\s\S]*)$/` matches exactly when the
content starts with `---\n` and the remainder contains `\n---\n`; the lazy
group makes the first such separator win.  The metadata object maps keys to
a string or a list of strings; the absent-metadata result of the no-match
branch is modelled as `none`. -/

inductive MetaValue where
  | str (s : Str)
  | list (l : List Str)
deriving DecidableEq

abbrev Metadata := List (Str × MetaValue)

def metaLookup (m : Metadata) (k : Str) : Option MetaValue :=
  (m.find? (fun kv => kv.1 = k)).map (fun kv => kv.2)

/-- Split at the first occurrence of `sep` (nonempty in all uses):
returns the part before and the part after. -/
def splitOnFirst (sep : Str) : Str → Option (Str × Str)
  | [] => none
  | c :: rest =>
    if sep.isPrefixOf (c :: rest) then some ([], (c :: rest).drop sep.length)
    else
      match splitOnFirst sep rest with
      | some (pre, post) => some (c :: pre, post)
      | none => none

/-- Splitting on a single-character separator, as the JavaScript split
method does: empty pieces are kept. -/
def splitChar (sep : Char) : Str → List Str
  | [] => [[]]
  | c :: rest =>
    let r := splitChar sep rest
    if c = sep then [] :: r
    else
      match r with
      | h :: t => (c :: h) :: t
      | [] => [[c]]

/-- The trim method of JavaScript strings, restricted to the ASCII
whitespace the yaml lines of this code base can contain. -/
def isWS (c : Char) : Bool := c = ' ' ∨ c = '\t' ∨ c = '\n' ∨ c = '\r'

def trim (s : Str) : Str := dropTrailing isWS (s.dropWhile isWS)

/-- Joining with a single-character separator (the inverse of the split
above), used for the value side of a metadata line. -/
def joinChar (sep : Char) : List Str → Str
  | [] => []
  | [x] => x
  | x :: y :: t => x ++ sep :: joinChar sep (y :: t)

/-- One line of the simple yaml parser: `key: value`, with the array form
`key: [a, b]`. -/
def parseMetaLine (meta : Metadata) (line : Str) : Metadata :=
  match splitChar ':' line with
  | k :: v1 :: vrest =>
    let key := trim k
    let value := trim (joinChar ':' (v1 :: vrest))
    if value.head? = some '[' ∧ value.getLast? = some ']' then
      (key, MetaValue.list (((splitChar ',' (value.drop 1).dropLast)).map trim))
        :: meta
    else (key, MetaValue.str value) :: meta
  | _ => meta

def fmOpen : Str := '-' :: '-' :: '-' :: '\n' :: []

def fmSep : Str := '\n' :: '-' :: '-' :: '-' :: '\n' :: []

/-- The regex match: `some (yaml, body)` when the front-matter block is
recognized. -/
def fmMatch? (s : Str) : Option (Str × Str) :=
  if fmOpen.isPrefixOf s then splitOnFirst fmSep (s.drop 4) else none

/-- Embeds `parseFrontMatter`: metadata (or `none` when no block is
recognized) and the body. -/
def parseFrontMatter (s : Str) : Option Metadata × Str :=
  match fmMatch? s with
  | some (yaml, body) =>
    (some ((splitChar '\n' yaml).foldl parseMetaLine []), body)
  | none => (none, s)

/-! ### Claim C9 -/

/-- C9: every content string on which the front-matter pattern does not
match (it does not begin with a recognized `---`-delimited block) is passed
through: no metadata, and the body is the full input unchanged. -/
theorem parseFrontMatter_no_block_id (s : Str) (h : fmMatch? s = none) :
    parseFrontMatter s = (none, s) := by
  simp [parseFrontMatter, h]

/-- Witness for C9 on a concrete plain document. -/
theorem parseFrontMatter_no_block_id_witness :
    parseFrontMatter ('#' :: ' ' :: 'h' :: 'i' :: '\n' :: 'x' :: []) =
      (none, '#' :: ' ' :: 'h' :: 'i' :: '\n' :: 'x' :: []) :=
  parseFrontMatter_no_block_id ('#' :: ' ' :: 'h' :: 'i' :: '\n' :: 'x' :: [])
    (by decide)

/-! ## Search (`SearchService`, search.js)

Tokenization lowercases, splits on every non-word character (`\w` is
`[A-Za-z0-9_]`) and keeps words longer than two characters; indexing
deduplicates tokens (a `Set` in the source, iterated in insertion order).
A query term that survives tokenization consists of word characters only,
so `new RegExp(term)` matches it literally; `match(…, 'g')` counts
non-overlapping occurrences left to right. -/

def lowerStr (s : Str) : Str := s.map Char.toLower

def isWordChar (c : Char) : Bool := c.isAlphanum ∨ c = '_'

/-- Splitting on non-word characters (empty pieces are produced at each
separator and filtered out afterwards, like the source filter `word &&`). -/
def splitNonWord : Str → List Str
  | [] => [[]]
  | c :: rest =>
    let r := splitNonWord rest
    if isWordChar c then
      match r with
      | h :: t => (c :: h) :: t
      | [] => [[c]]
    else [] :: r

def jsWords (s : Str) : List Str := (splitNonWord s).filter (fun w => w ≠ [])

def dedupKeepFirst (seen : List Str) : List Str → List Str
  | [] => []
  | x :: xs =>
    if x ∈ seen then dedupKeepFirst seen xs
    else x :: dedupKeepFirst (x :: seen) xs

/-- Embeds `SearchService.tokenize`: lowercase, split, keep length > 2,
unique. -/
def tokenize (content : Str) : List Str :=
  dedupKeepFirst [] ((jsWords (lowerStr content)).filter (fun w => 2 < w.length))

/-- Query tokenization in `searchInFiles`: same rules but without the
de-duplication (a plain array in the source). -/
def queryTokens (q : Str) : List Str :=
  (jsWords (lowerStr q)).filter (fun w => 2 < w.length)

/-- Non-overlapping left-to-right occurrence count of `pat` in `s`
(`(s.match(new RegExp(pat, 'g')) || []).length` for a literal pattern).
The fuel argument (`s.length` at the top call) only drives termination:
every step consumes at least one character. -/
def countOccursAux (pat : Str) : Nat → Str → Nat
  | 0, _ => 0
  | _ + 1, [] => 0
  | fuel + 1, c :: rest =>
    if pat ≠ [] ∧ pat.isPrefixOf (c :: rest) then
      1 + countOccursAux pat fuel ((c :: rest).drop pat.length)
    else countOccursAux pat fuel rest

def countOccurs (pat s : Str) : Nat := countOccursAux pat s.length s

def markOpen : Str := '<' :: 'm' :: 'a' :: 'r' :: 'k' :: '>' :: []

def markClose : Str := '<' :: '/' :: 'm' :: 'a' :: 'r' :: 'k' :: '>' :: []

/-- Excerpt highlighting: wrap every case-insensitive occurrence of the
(lowercase) term, preserving the original matched text, as the global
case-insensitive replace of the source does. -/
def highlightAux (pat : Str) : Nat → Str → Str
  | 0, s => s
  | _ + 1, [] => []
  | fuel + 1, c :: rest =>
    if pat ≠ [] ∧ pat.length ≤ (c :: rest).length ∧
        lowerStr ((c :: rest).take pat.length) = pat then
      markOpen ++ (c :: rest).take pat.length ++ markClose ++
        highlightAux pat fuel ((c :: rest).drop pat.length)
    else c :: highlightAux pat fuel rest

def highlightCI (pat s : Str) : Str := highlightAux pat s.length s

/-- An `IndexedDocument`. -/
structure Doc where
  path : Str
  title : Str
  content : Str
deriving DecidableEq

/-- The inverted index: token to posting list (`{}` object with `[]`
default in the source). -/
def Index := Str → List Doc

def emptyIndex : Index := fun _ => []

/-- Posting one token for one document (`searchIndex[token].push(doc)`
guarded by the per-token path de-duplication check). -/
def postToken (idx : Index) (tok : Str) (d : Doc) : Index :=
  if (idx tok).any (fun x => x.path = d.path) then idx
  else fun t => if t = tok then idx tok ++ [d] else idx t

/-- First `^# (.+)$` (multiline) heading of the body. -/
def firstHeading? (content : Str) : Option Str :=
  (splitChar '\n' content).findSome? fun l =>
    if ('#' :: ' ' :: []).isPrefixOf l ∧ 3 ≤ l.length then some (l.drop 2)
    else none

/-- Replacement of every dash or underscore by a space (the first step of
the slug humanization). -/
def dashToSpace (s : Str) : Str :=
  s.map fun c => if c = '-' ∨ c = '_' then ' ' else c

/-- Uppercasing of every word character at a word boundary (the second
step of the slug humanization). -/
def titleCaseAux : Option Char → Str → Str
  | _, [] => []
  | prev, c :: rest =>
    let boundary : Bool := match prev with
      | none => true
      | some p => ! isWordChar p
    (if isWordChar c && boundary then c.toUpper else c) ::
      titleCaseAux (some c) rest

def titleCase (s : Str) : Str := titleCaseAux none s

def mdExt : Str := '.' :: 'm' :: 'd' :: []

/-- Removal of the first occurrence of a pattern: the JavaScript replace
method with a plain-string pattern replaces only the first occurrence. -/
def removeFirst (pat s : Str) : Str :=
  match splitOnFirst pat s with
  | some (pre, post) => pre ++ post
  | none => s

/-- Embeds `SearchService.getFileTitle`: first heading, else humanized
file name. -/
def getFileTitle (path content : Str) : Str :=
  match firstHeading? content with
  | some t => t
  | none =>
    titleCase (dashToSpace (removeFirst mdExt
      ((splitChar '/' path).getLastD [])))

def titleKey : Str := 't' :: 'i' :: 't' :: 'l' :: 'e' :: []

/-- Title selection of `indexFile`: a truthy string title from the front
matter wins, anything else falls back to `getFileTitle`.  (An
array-valued `title`, which would make the search path throw in the
source, is mapped to the fallback to keep the model total; no claim
exercises that case.) -/
def docTitle (meta : Option Metadata) (path clean : Str) : Str :=
  match meta with
  | some m =>
    match metaLookup m titleKey with
    | some (.str s) => if s ≠ [] then s else getFileTitle path clean
    | some (.list _) => getFileTitle path clean
    | none => getFileTitle path clean
  | none => getFileTitle path clean

structure IndexState where
  index : Index
  indexedFiles : List Str

/-- Embeds `SearchService.indexFile`: skip already-indexed paths; a fetch error is
caught and skipped; falsy content (null answer or empty string) is skipped;
otherwise strip front matter, build the document and post every token of
the body. -/
def indexFile (st : IndexState) (path : Str)
    (fetched : Except Unit (Option Str)) : IndexState :=
  if path ∈ st.indexedFiles then st
  else
    match fetched with
    | .error _ => st
    | .ok none => st
    | .ok (some content) =>
      if content = [] then st
      else
        let pf := parseFrontMatter content
        let d : Doc := ⟨path, docTitle pf.1 path pf.2, pf.2⟩
        let idx := (tokenize pf.2).foldl (fun ix tok => postToken ix tok d)
          st.index
        ⟨idx, path :: st.indexedFiles⟩

/-- One crawl over a list of files: the per-file loop of
`SearchService.indexDirectory` (with the directory tree flattened into the
file order the crawl visits and each file paired with the outcome its
content fetch would produce). -/
def crawl (files : List (Str × Except Unit (Option Str))) : IndexState :=
  files.foldl (fun st pr => indexFile st pr.1 pr.2) ⟨emptyIndex, []⟩

structure SearchResult where
  path : Str
  title : Str
  excerpt : Str
  score : Nat
deriving DecidableEq

/-- Per-term score contribution of one posting-list document:
`contentOccurrences + titleOccurrences * 3`. -/
def scoreOf (term : Str) (d : Doc) : Nat :=
  countOccurs term (lowerStr d.content) + 3 * countOccurs term (lowerStr d.title)

/-- The loop body over one posting list: accumulate `docScores` and record
the first document object seen per path (`termResults`). -/
def searchStep (idx : Index) (acc : (Str → Nat) × List (Str × Doc))
    (term : Str) : (Str → Nat) × List (Str × Doc) :=
  (idx term).foldl
    (fun a d =>
      ((fun p => if p = d.path then a.1 d.path + scoreOf term d else a.1 p),
       if a.2.any (fun x => x.1 = d.path) then a.2 else a.2 ++ [(d.path, d)]))
    acc

def insertByScore (x : SearchResult) : List SearchResult → List SearchResult
  | [] => [x]
  | y :: ys => if y.score ≤ x.score then x :: y :: ys else y :: insertByScore x ys

/-- Stable descending sort by score, the behavior of the comparator-based
sort call of the source on a modern engine. -/
def sortByScoreDesc : List SearchResult → List SearchResult
  | [] => []
  | x :: xs => insertByScore x (sortByScoreDesc xs)

def excerptOf (terms : List Str) (content : Str) : Str :=
  terms.foldl (fun e t => highlightCI t e)
    (content.take 200 ++ ('.' :: '.' :: '.' :: []))

/-- Embeds `SearchService.searchInFiles`. -/
def searchInFiles (idx : Index) (query : Str) : List SearchResult :=
  let terms := queryTokens query
  if terms = [] then []
  else
    let acc := terms.foldl (searchStep idx) ((fun _ => 0), [])
    sortByScoreDesc (acc.2.map fun pr =>
      ⟨pr.1, pr.2.title, excerptOf terms pr.2.content, acc.1 pr.1⟩)

/-- The scoring formula of the specification: over all query terms, every
posting-list entry for this path contributes its body occurrences plus
three times its title occurrences. -/
def scoreSpec (idx : Index) (terms : List Str) (p : Str) : Nat :=
  (terms.map fun t =>
    (((idx t).filter (fun d => d.path = p)).map (scoreOf t)).sum).sum

/-! ### Claim C3 -/

/-- The posting-list loop body, named for the proofs below. -/
def searchAccum (term : Str) (a : (Str → Nat) × List (Str × Doc)) (d : Doc) :
    (Str → Nat) × List (Str × Doc) :=
  ((fun p => if p = d.path then a.1 d.path + scoreOf term d else a.1 p),
   if a.2.any (fun x => x.1 = d.path) then a.2 else a.2 ++ [(d.path, d)])

theorem searchStep_eq_foldl (idx : Index) (acc : (Str → Nat) × List (Str × Doc))
    (term : Str) :
    searchStep idx acc term = (idx term).foldl (searchAccum term) acc := by
  rfl

theorem foldl_searchAccum_fst (term : Str) (docs : List Doc)
    (a : (Str → Nat) × List (Str × Doc)) (p : Str) :
    (docs.foldl (searchAccum term) a).1 p =
      a.1 p + ((docs.filter (fun d => d.path = p)).map (scoreOf term)).sum := by
  induction docs generalizing a with
  | nil => simp
  | cons d ds ih =>
    rw [List.foldl_cons, ih]
    by_cases hp : d.path = p
    · have hfil : (d :: ds).filter (fun x => x.path = p) =
          d :: ds.filter (fun x => x.path = p) := by
        simp [List.filter_cons, hp]
      rw [hfil]
      simp only [searchAccum, List.map_cons, List.sum_cons]
      rw [if_pos hp.symm, hp]
      omega
    · have hfil : (d :: ds).filter (fun x => x.path = p) =
          ds.filter (fun x => x.path = p) := by
        simp [List.filter_cons, hp]
      rw [hfil]
      simp only [searchAccum]
      rw [if_neg (fun he => hp he.symm)]

theorem foldl_searchStep_fst (idx : Index) (terms : List Str)
    (a : (Str → Nat) × List (Str × Doc)) (p : Str) :
    (terms.foldl (searchStep idx) a).1 p = a.1 p + scoreSpec idx terms p := by
  induction terms generalizing a with
  | nil => simp [scoreSpec]
  | cons t ts ih =>
    rw [List.foldl_cons, ih, searchStep_eq_foldl, foldl_searchAccum_fst]
    simp only [scoreSpec, List.map_cons, List.sum_cons]
    omega

theorem mem_insertByScore (x y : SearchResult) (l : List SearchResult) :
    y ∈ insertByScore x l ↔ y = x ∨ y ∈ l := by
  induction l with
  | nil => simp [insertByScore]
  | cons z zs ih =>
    rw [insertByScore]
    by_cases h : z.score ≤ x.score
    · rw [if_pos h]
      simp [List.mem_cons]
    · rw [if_neg h]
      simp only [List.mem_cons, ih]
      tauto

theorem mem_sortByScoreDesc (l : List SearchResult) (y : SearchResult) :
    y ∈ sortByScoreDesc l ↔ y ∈ l := by
  induction l with
  | nil => simp [sortByScoreDesc]
  | cons x xs ih =>
    rw [sortByScoreDesc, mem_insertByScore]
    simp [List.mem_cons, ih]

def pathA : Str := "a.md".data

def pathB : Str := "b.md".data

/-- Document whose title holds the term once and whose body holds it
once. -/
def fileA : Str := "---\ntitle: zebra facts\n---\nthe zebra grazes".data

/-- Document whose body holds the term once and whose title does not. -/
def fileB : Str := "---\ntitle: other\n---\nzebra runs".data

/-- Document whose title holds the term once and whose body does not. -/
def fileA0 : Str := "---\ntitle: zebra\n---\nplain words here".data

def zebraQ : Str := 'z' :: 'e' :: 'b' :: 'r' :: 'a' :: []

/-- C3 (as stated) fails: `fileA0` carries the term once in its title and
zero times in its body, yet it is not matched at all — only the body is
tokenized for indexing — so it does not rank above the body-only document;
the result list holds only the latter. -/
theorem search_title_only_not_matched_cex :
    countOccurs zebraQ (lowerStr (docTitle (parseFrontMatter fileA0).1 pathA
      (parseFrontMatter fileA0).2)) = 1 ∧
    countOccurs zebraQ (lowerStr (parseFrontMatter fileA0).2) = 0 ∧
    ((searchInFiles (crawl [(pathA, .ok (some fileA0)),
          (pathB, .ok (some fileB))]).index zebraQ).map
        fun r => (r.path, r.score)) = [(pathB, 1)] := by
  refine ⟨by decide, by decide, by decide⟩

/-- C3 (amended): every result of `searchInFiles` carries as score the
specification sum — over the query terms, each posting-list entry for the
result path contributes its case-insensitive literal occurrence count in
the body plus three times that in the title; and for a single-term query a
matched document holding the term once in title and once in body (score 4)
ranks strictly above a matched document holding it once in body and zero
times in title (score 1). -/
theorem search_score_accumulation :
    (∀ (idx : Index) (q : Str) (r : SearchResult),
        r ∈ searchInFiles idx q →
        r.score = scoreSpec idx (queryTokens q) r.path) ∧
    ((searchInFiles (crawl [(pathA, .ok (some fileA)),
          (pathB, .ok (some fileB))]).index zebraQ).map
        fun r => (r.path, r.score)) = [(pathA, 4), (pathB, 1)] := by
  constructor
  · intro idx q r hr
    simp only [searchInFiles] at hr
    by_cases hq : queryTokens q = []
    · rw [if_pos hq] at hr
      cases hr
    · rw [if_neg hq] at hr
      rw [mem_sortByScoreDesc] at hr
      obtain ⟨pr, hpr, hre⟩ := List.mem_map.mp hr
      subst hre
      show ((queryTokens q).foldl (searchStep idx) ((fun _ => 0), [])).1 pr.1 =
        scoreSpec idx (queryTokens q) pr.1
      rw [foldl_searchStep_fst]
      simp
  · decide

/-- Witness for C3 on the concrete two-document index. -/
theorem search_score_accumulation_witness :
    (⟨pathB, "other".data, "<mark>zebra</mark> runs...".data,
        1⟩ : SearchResult).score =
      scoreSpec (crawl [(pathA, .ok (some fileA)),
          (pathB, .ok (some fileB))]).index (queryTokens zebraQ) pathB :=
  search_score_accumulation.1
    (crawl [(pathA, .ok (some fileA)), (pathB, .ok (some fileB))]).index
    zebraQ
    ⟨pathB, "other".data, "<mark>zebra</mark> runs...".data, 1⟩
    (by decide)

/-! ### Claim C4 -/

/-- A file whose content fetch succeeds with content that survives the
falsy-content guard and yields at least one indexable token. -/
def goodFile : Str × Except Unit (Option Str) → Bool
  | (_, .ok (some c)) =>
    !c.isEmpty && !(tokenize (parseFrontMatter c).2).isEmpty
  | _ => false

/-- The inverted index contains an entry for the path `p`. -/
def hasEntryFor (idx : Index) (p : Str) : Prop :=
  ∃ tok d, d ∈ idx tok ∧ d.path = p

theorem mem_postToken (idx : Index) (tok : Str) (d0 d : Doc) (t : Str)
    (h : d ∈ idx t) : d ∈ postToken idx tok d0 t := by
  rw [postToken]
  split
  · exact h
  · by_cases ht : t = tok
    · subst ht
      show d ∈ if t = t then idx t ++ [d0] else idx t
      rw [if_pos rfl]
      exact List.mem_append.mpr (Or.inl h)
    · show d ∈ if t = tok then idx tok ++ [d0] else idx t
      rw [if_neg ht]
      exact h

theorem mem_foldl_postToken (toks : List Str) (d0 : Doc) (idx : Index)
    (t : Str) (d : Doc) (h : d ∈ idx t) :
    d ∈ (toks.foldl (fun ix tok => postToken ix tok d0) idx) t := by
  induction toks generalizing idx with
  | nil => exact h
  | cons tk tks ih => exact ih _ (mem_postToken idx tk d0 d t h)

theorem hasEntryFor_postToken_self (idx : Index) (tok : Str) (d : Doc) :
    hasEntryFor (postToken idx tok d) d.path := by
  rw [postToken]
  split
  · next hany =>
    rw [List.any_eq_true] at hany
    obtain ⟨x, hx, hxe⟩ := hany
    exact ⟨tok, x, hx, by simpa using hxe⟩
  · refine ⟨tok, d, ?_, rfl⟩
    show d ∈ if tok = tok then idx tok ++ [d] else idx tok
    rw [if_pos rfl]
    exact List.mem_append.mpr (Or.inr (List.mem_singleton.mpr rfl))

theorem hasEntryFor_foldl_postToken (toks : List Str) (d0 : Doc)
    (idx : Index) (p : Str) (h : hasEntryFor idx p) :
    hasEntryFor (toks.foldl (fun ix tok => postToken ix tok d0) idx) p := by
  obtain ⟨tok, d, hd, hp⟩ := h
  exact ⟨tok, d, mem_foldl_postToken toks d0 idx tok d hd, hp⟩

theorem hasEntryFor_indexFile (st : IndexState) (p0 : Str)
    (r : Except Unit (Option Str)) (p : Str)
    (h : hasEntryFor st.index p) : hasEntryFor (indexFile st p0 r).index p := by
  rw [indexFile.eq_def]
  split
  · exact h
  · rcases r with e | oc
    · exact h
    · rcases oc with _ | c
      · exact h
      · show hasEntryFor
            (if c = [] then st else
              ⟨(tokenize (parseFrontMatter c).2).foldl
                (fun ix tok => postToken ix tok
                  ⟨p0, docTitle (parseFrontMatter c).1 p0 (parseFrontMatter c).2,
                   (parseFrontMatter c).2⟩) st.index,
               p0 :: st.indexedFiles⟩).index p
        by_cases hc : c = []
        · rw [if_pos hc]
          exact h
        · rw [if_neg hc]
          exact hasEntryFor_foldl_postToken _ _ _ p h

theorem hasEntryFor_crawl_fold (files : List (Str × Except Unit (Option Str)))
    (st : IndexState) (p : Str) (h : hasEntryFor st.index p) :
    hasEntryFor
      ((files.foldl (fun s pr => indexFile s pr.1 pr.2) st).index) p := by
  induction files generalizing st with
  | nil => exact h
  | cons f fs ih => exact ih _ (hasEntryFor_indexFile st f.1 f.2 p h)

theorem hasEntryFor_self (st : IndexState) (p : Str)
    (r : Except Unit (Option Str)) (hg : goodFile (p, r) = true)
    (hnot : p ∉ st.indexedFiles) :
    hasEntryFor (indexFile st p r).index p := by
  rcases r with e | oc
  · simp [goodFile] at hg
  · rcases oc with _ | c
    · simp [goodFile] at hg
    · simp only [goodFile, Bool.and_eq_true, Bool.not_eq_eq_eq_not,
        Bool.not_true, List.isEmpty_eq_false] at hg
      obtain ⟨hc, htok⟩ := hg
      rw [indexFile.eq_def, if_neg hnot]
      show hasEntryFor
        (if c = [] then st else
          ⟨(tokenize (parseFrontMatter c).2).foldl
            (fun ix tok => postToken ix tok
              ⟨p, docTitle (parseFrontMatter c).1 p (parseFrontMatter c).2,
               (parseFrontMatter c).2⟩) st.index,
           p :: st.indexedFiles⟩).index p
      rw [if_neg hc]
      rcases htoks : tokenize (parseFrontMatter c).2 with _ | ⟨tk, tks⟩
      · exact absurd htoks htok
      · rw [List.foldl_cons]
        exact hasEntryFor_foldl_postToken tks _ _ p
          (hasEntryFor_postToken_self st.index tk
            ⟨p, docTitle (parseFrontMatter c).1 p (parseFrontMatter c).2,
             (parseFrontMatter c).2⟩)

theorem indexFile_indexedFiles_sub (st : IndexState) (p0 : Str)
    (r : Except Unit (Option Str)) :
    (indexFile st p0 r).indexedFiles ⊆ p0 :: st.indexedFiles := by
  rw [indexFile.eq_def]
  split
  · exact fun x hx => List.mem_cons_of_mem _ hx
  · rcases r with e | oc
    · exact fun x hx => List.mem_cons_of_mem _ hx
    · rcases oc with _ | c
      · exact fun x hx => List.mem_cons_of_mem _ hx
      · show (if c = [] then st else
            ⟨(tokenize (parseFrontMatter c).2).foldl
              (fun ix tok => postToken ix tok
                ⟨p0, docTitle (parseFrontMatter c).1 p0 (parseFrontMatter c).2,
                 (parseFrontMatter c).2⟩) st.index,
             p0 :: st.indexedFiles⟩).indexedFiles ⊆ p0 :: st.indexedFiles
        by_cases hc : c = []
        · rw [if_pos hc]
          exact fun x hx => List.mem_cons_of_mem _ hx
        · rw [if_neg hc]
          exact fun x hx => hx

theorem crawl_fold_good (files : List (Str × Except Unit (Option Str)))
    (st : IndexState) (hnd : (files.map Prod.fst).Nodup)
    (hdisj : ∀ x ∈ files, x.1 ∉ st.indexedFiles) :
    ∀ x ∈ files, goodFile x = true →
      hasEntryFor
        ((files.foldl (fun s pr => indexFile s pr.1 pr.2) st).index) x.1 := by
  induction files generalizing st with
  | nil =>
    intro x hx
    cases hx
  | cons f fs ih =>
    intro x hx hg
    rw [List.foldl_cons]
    rw [List.map_cons, List.nodup_cons] at hnd
    rcases List.mem_cons.mp hx with rfl | hx2
    · have hstep : hasEntryFor (indexFile st x.1 x.2).index x.1 :=
        hasEntryFor_self st x.1 x.2 hg (hdisj x (List.mem_cons_self _ _))
      exact hasEntryFor_crawl_fold fs _ x.1 hstep
    · apply ih (indexFile st f.1 f.2) hnd.2 ?_ x hx2 hg
      intro y hy hmem
      rcases List.mem_cons.mp
          (indexFile_indexedFiles_sub st f.1 f.2 hmem) with he | hm
      · exact hnd.1 (he ▸ List.mem_map_of_mem Prod.fst hy)
      · exact hdisj y (List.mem_cons_of_mem f hy) hm

/-- C4: in a crawl whose file list contains exactly one file whose content
fetch throws, while every other file fetches successfully with indexable
content (nonempty after the falsy guard and producing at least one token),
the resulting inverted index contains an entry for every one of the other
files: the error is caught inside the per-file step and the crawl
continues. -/
theorem crawl_indexes_surviving_files
    (l1 l2 : List (Str × Except Unit (Option Str))) (pbad : Str)
    (hnd : ((l1 ++ (pbad, Except.error ()) :: l2).map Prod.fst).Nodup)
    (hgood : ∀ x ∈ l1 ++ l2, goodFile x = true) :
    ∀ x ∈ l1 ++ l2,
      hasEntryFor (crawl (l1 ++ (pbad, Except.error ()) :: l2)).index x.1 := by
  intro x hx
  have hx2 : x ∈ l1 ++ (pbad, Except.error ()) :: l2 := by
    rcases List.mem_append.mp hx with h | h
    · exact List.mem_append.mpr (Or.inl h)
    · exact List.mem_append.mpr (Or.inr (List.mem_cons_of_mem _ h))
  exact crawl_fold_good _ ⟨emptyIndex, []⟩ hnd
    (by intro y hy; simp) x hx2 (hgood x hx)

/-- Witness for C4: three files, the middle fetch throws, the two others
are still indexed. -/
theorem crawl_indexes_surviving_files_witness :
    hasEntryFor
      (crawl ([("x.md".data, Except.ok (some "alpha beta".data))] ++
        ("bad.md".data, Except.error ()) ::
        [("y.md".data, Except.ok (some "gamma delta".data))])).index
      "x.md".data :=
  crawl_indexes_surviving_files
    [("x.md".data, Except.ok (some "alpha beta".data))]
    [("y.md".data, Except.ok (some "gamma delta".data))]
    "bad.md".data (by decide) (by decide)
    ("x.md".data, Except.ok (some "alpha beta".data))
    (List.mem_append.mpr (Or.inl (List.mem_singleton.mpr rfl)))
